import Mathlib

/-!
Verification of the environment source adapter (`src/env.rs`) of the
config-rs repository.

The Rust code is shallowly embedded: the `Environment` struct and its
builder methods become Lean structures and functions, the `collect` loop
becomes a fold over an explicit list of `(name, value)` environment
entries, and all string operations are modelled over the underlying
character lists.  Rust's `to_lowercase` is modelled by per-character
ASCII lowercasing (the claims and spec only exercise ASCII data);
byte-level indexing coincides with character indexing on the code paths
used (a stripped pattern is always a verified prefix of the key).
-/

namespace ConfigRs

/-- Embeds Rust `String::to_lowercase` (restricted to per-character ASCII
lowercasing) applied to a string. -/
def strLower (s : String) : String :=
  ⟨s.data.map Char.toLower⟩

/-- Embeds Rust `str::starts_with` for a string pattern. -/
def strStartsWith (s pat : String) : Bool :=
  pat.data.isPrefixOf s.data

/-- Embeds Rust slicing `s[n..]`: drop the first `n` characters. -/
def strDrop (s : String) (n : Nat) : String :=
  ⟨s.data.drop n⟩

/-- Embeds Rust `str::is_empty`. -/
def strIsEmpty (s : String) : Bool :=
  s.data.isEmpty

/-- One replacement pass of `str::replace` over character lists, with fuel
bounding the recursion depth (the fuel is instantiated with the length of
the list, which always suffices).  Finds non-overlapping occurrences of
`sep` left to right and substitutes `rep`. -/
def replaceFuel (sep rep : List Char) : Nat → List Char → List Char
  | 0, l => l
  | _ + 1, [] => []
  | fuel + 1, c :: rest =>
    if !sep.isEmpty && sep.isPrefixOf (c :: rest) then
      rep ++ replaceFuel sep rep fuel ((c :: rest).drop sep.length)
    else
      c :: replaceFuel sep rep fuel rest

/-- Embeds Rust `str::replace`: replace every non-overlapping occurrence
of `sep` in `s` by `rep` (left to right). -/
def strReplace (s sep rep : String) : String :=
  ⟨replaceFuel sep.data rep.data s.data.length s.data⟩

/-- Embeds Rust `bool::from_str`: exactly the strings `true` and `false`
parse. -/
def parseBool (s : String) : Option Bool :=
  if s = "true" then some true
  else if s = "false" then some false
  else none

/-- Value of a list of ASCII decimal digits, most significant first. -/
def digitsVal (l : List Char) : Nat :=
  l.foldl (fun acc c => acc * 10 + (c.toNat - '0'.toNat)) 0

/-- Reads a nonempty list of ASCII digits; `none` on any other input. -/
def digitsToNat (l : List Char) : Option Nat :=
  if l ≠ [] ∧ l.all Char.isDigit then some (digitsVal l) else none

/-- Embeds Rust `i64::from_str`: an optional sign followed by one or more
ASCII digits, rejected when the value is outside the signed 64-bit
range. -/
def parseI64 (s : String) : Option Int :=
  match s.data with
  | [] => none
  | c :: rest =>
    if c = '-' then
      (digitsToNat rest).bind fun n =>
        if n ≤ 2 ^ 63 then some (-(n : Int)) else none
    else if c = '+' then
      (digitsToNat rest).bind fun n =>
        if n ≤ 2 ^ 63 - 1 then some (n : Int) else none
    else
      (digitsToNat (c :: rest)).bind fun n =>
        if n ≤ 2 ^ 63 - 1 then some (n : Int) else none

/-- Drops a single leading `+` or `-` sign, if present. -/
def stripSign : List Char → List Char
  | [] => []
  | c :: rest => if c = '+' || c = '-' then rest else c :: rest

/-- The mantissa grammar of Rust `f64::from_str`:
`Digit+ | Digit+ '.' Digit* | Digit* '.' Digit+`, stated as: a maximal
run of leading digits, then either nothing or a dot followed by digits,
with at least one digit in total. -/
def mantissaOk (l : List Char) : Bool :=
  let a := l.takeWhile Char.isDigit
  match l.dropWhile Char.isDigit with
  | [] => !a.isEmpty
  | c :: b => c = '.' && b.all Char.isDigit && (!a.isEmpty || !b.isEmpty)

/-- The exponent grammar of Rust `f64::from_str`: `Sign? Digit+`. -/
def expOk (l : List Char) : Bool :=
  let l := stripSign l
  !l.isEmpty && l.all Char.isDigit

/-- Splits a character list at the first `e`/`E`, when one occurs. -/
def splitExp : List Char → List Char × Option (List Char)
  | [] => ([], none)
  | c :: rest =>
    if c = 'e' || c = 'E' then ([], some rest)
    else
      let p := splitExp rest
      (c :: p.1, p.2)

/-- Embeds the success condition of Rust `f64::from_str`:
`Sign? ( inf | infinity | nan | Number )` where
`Number ::= Mantissa Exp?`, with `inf`/`infinity`/`nan` matched
case-insensitively.  Only parse success or failure is modelled; the
IEEE-754 value produced on success is not. -/
def isF64 (s : String) : Bool :=
  let body := stripSign s.data
  let lower := body.map Char.toLower
  if lower = "inf".data || lower = "infinity".data || lower = "nan".data then
    true
  else
    let p := splitExp body
    mantissaOk p.1 &&
      (match p.2 with
       | none => true
       | some ex => expOk ex)

/-- Embeds `ValueKind` from the crate's value module.  The `float`
variant stores the source text whose `f64` parse succeeded, because the
bit-exact IEEE-754 value is outside the model; every claim here depends
only on which variant is produced and on the boolean/integer/string
payloads. -/
inductive ValueKind where
  | boolean (b : Bool)
  | integer (i : Int)
  | float (src : String)
  | str (s : String)
deriving DecidableEq, Repr

/-- Modelled from the spec: the crate's `Value` (its module is not under
`src/`) is a typed value plus a provenance tag naming its origin. -/
structure Value where
  origin : Option String
  kind : ValueKind
deriving DecidableEq, Repr

/-- Modelled from the spec: the crate's `ConfigError` (its module is not
under `src/`) is the error type of the fallible `Source` contract; only
its existence matters to `collect`, which never constructs one. -/
inductive ConfigError where
  | message (msg : String)
deriving DecidableEq, Repr

/-- Modelled from the spec: the crate's `Map` (its module is not under
`src/`) is a string-keyed map; `insert` overwrites an existing binding.
Represented as an association list with unique keys. -/
def mapInsert : List (String × Value) → String → Value → List (String × Value)
  | [], k, v => [(k, v)]
  | (k', v') :: rest, k, v =>
    if k' = k then (k, v) :: rest else (k', v') :: mapInsert rest k v

/-- Embeds the `Environment` struct of `src/env.rs`.  The field `pfx`
models the Rust field named `prefix` (that identifier is avoided in this
development). -/
structure Environment where
  pfx : Option String
  separator : Option String
  ignore_empty : Bool
  try_parsing : Bool
deriving DecidableEq, Repr

namespace Environment

/-- Embeds `impl Default for Environment`. -/
def defaultEnv : Environment :=
  ⟨none, none, false, false⟩

/-- Embeds `Environment::new`. -/
def new : Environment :=
  defaultEnv

/-- Embeds `Environment::with_prefix`. -/
def with_pfx (s : String) : Environment :=
  ⟨some s, defaultEnv.separator, defaultEnv.ignore_empty, defaultEnv.try_parsing⟩

/-- Embeds the builder method `Environment::prefix`. -/
def setPfx (e : Environment) (s : String) : Environment :=
  ⟨some s, e.separator, e.ignore_empty, e.try_parsing⟩

/-- Embeds the builder method `Environment::separator`. -/
def setSeparator (e : Environment) (s : String) : Environment :=
  ⟨e.pfx, some s, e.ignore_empty, e.try_parsing⟩

/-- Embeds the builder method `Environment::ignore_empty`. -/
def set_ignore_empty (e : Environment) (ignore : Bool) : Environment :=
  ⟨e.pfx, e.separator, ignore, e.try_parsing⟩

/-- Embeds the builder method `Environment::try_parsing`. -/
def set_try_parsing (e : Environment) (t : Bool) : Environment :=
  ⟨e.pfx, e.separator, e.ignore_empty, t⟩

end Environment

/-- Embeds `let separator = self.separator.as_deref().unwrap_or("");`. -/
def sepCfg (cfg : Environment) : String :=
  cfg.separator.getD ""

/-- Embeds `let group_separator = self.separator.as_deref().unwrap_or("_");`. -/
def groupSep (cfg : Environment) : String :=
  cfg.separator.getD "_"

/-- The `prefix_pattern` computed by `collect`: the lowercased
concatenation of the configured prefix and the group separator, when a
prefix is configured. -/
def pfxPattern (cfg : Environment) : Option String :=
  cfg.pfx.map fun p => strLower (p ++ groupSep cfg)

/-- The prefix check and strip of the `collect` loop: `none` means the
entry is skipped (`continue`), `some k` is the key with the pattern
stripped from the front. -/
def stripPfx (cfg : Environment) (key : String) : Option String :=
  match pfxPattern cfg with
  | some pat =>
    if strStartsWith key pat then some (strDrop key pat.data.length) else none
  | none => some key

/-- The separator rewrite of the `collect` loop: when the configured
separator is nonempty, every occurrence in the key is replaced by `.`. -/
def sepRewrite (cfg : Environment) (key : String) : String :=
  if !strIsEmpty (sepCfg cfg) then strReplace key (sepCfg cfg) "." else key

/-- The value inference of the `collect` loop: with `try_parsing` on, try
boolean (on the lowercased text), then 64-bit integer, then 64-bit float,
then fall back to the verbatim string; with `try_parsing` off, always the
verbatim string. -/
def inferValue (try_parsing : Bool) (value : String) : ValueKind :=
  if try_parsing then
    match parseBool (strLower value) with
    | some parsed => .boolean parsed
    | none =>
      match parseI64 value with
      | some parsed => .integer parsed
      | none =>
        if isF64 value then .float value else .str value
  else
    .str value

/-- The provenance tag attached to every produced value. -/
def theUri : String := "the environment"

/-- One iteration of the `collect` loop on entry `(key, value)`: `none`
when the entry is skipped, `some (k, v)` the binding inserted into the
result map. -/
def collectEntry (cfg : Environment) (key value : String) :
    Option (String × Value) :=
  if cfg.ignore_empty && strIsEmpty value then none
  else
    match stripPfx cfg (strLower key) with
    | none => none
    | some k =>
      some (sepRewrite cfg k, ⟨some theUri, inferValue cfg.try_parsing value⟩)

/-- The fold step of `collect`: inserts the binding produced by an entry
into the accumulated map, or leaves the map unchanged when the entry is
skipped. -/
def collectStep (cfg : Environment) (m : List (String × Value))
    (kv : String × String) : List (String × Value) :=
  match collectEntry cfg kv.1 kv.2 with
  | some (k, v) => mapInsert m k v
  | none => m

/-- Embeds `Environment::collect`, with the host environment snapshot
passed explicitly as a list of `(name, value)` entries. -/
def collect (cfg : Environment) (vars : List (String × String)) :
    Except ConfigError (List (String × Value)) :=
  Except.ok (vars.foldl (collectStep cfg) [])

/-- The empty-value filter of the `collect` loop, as a standalone
predicate: an entry passes unless `ignore_empty` is set and its value is
empty. -/
def emptyPass (cfg : Environment) (value : String) : Bool :=
  !(cfg.ignore_empty && strIsEmpty value)

/-- The prefix filter of the `collect` loop, as a standalone predicate:
an entry passes when no prefix is configured, or when its lowercased
name starts with the prefix pattern. -/
def pfxPass (cfg : Environment) (key : String) : Bool :=
  match pfxPattern cfg with
  | some pat => strStartsWith (strLower key) pat
  | none => true

/-!
Helper lemmas and the claim theorems.
-/

lemma toLower_eq_of_isDigit (c : Char) (h : c.isDigit = true) : c.toLower = c := by
  simp [Char.isDigit] at h
  obtain ⟨h1, h2⟩ := h
  have h2' : c.val.toNat ≤ 57 := UInt32.toNat_le_of_le (by decide) h2
  unfold Char.toLower
  rw [if_neg]
  simp [Char.toNat]
  omega

lemma map_toLower_of_digits (l : List Char) (h : l.all Char.isDigit = true) :
    l.map Char.toLower = l := by
  induction l with
  | nil => rfl
  | cons c rest ih =>
    rw [List.all_cons, Bool.and_eq_true] at h
    simp [List.map_cons, toLower_eq_of_isDigit c h.1, ih h.2]

lemma splitExp_of_digits (l : List Char) (h : l.all Char.isDigit = true) :
    splitExp l = (l, none) := by
  induction l with
  | nil => rfl
  | cons c rest ih =>
    rw [List.all_cons, Bool.and_eq_true] at h
    obtain ⟨h1, h2⟩ := h
    have hc : ¬(c = 'e' || c = 'E') = true := by
      intro hor
      rw [Bool.or_eq_true, decide_eq_true_iff, decide_eq_true_iff] at hor
      rcases hor with h' | h' <;> rw [h'] at h1 <;> exact absurd h1 (by decide)
    simp [splitExp, hc, ih h2]

lemma mantissaOk_of_digits (l : List Char) (hne : l ≠ [])
    (h : l.all Char.isDigit = true) : mantissaOk l = true := by
  have hdrop : l.dropWhile Char.isDigit = [] := by
    rw [List.dropWhile_eq_nil_iff]
    intro x hx
    exact List.all_eq_true.mp h x hx
  have htake : l.takeWhile Char.isDigit = l := by
    rw [List.takeWhile_eq_self_iff]
    intro x hx
    exact List.all_eq_true.mp h x hx
  simp only [mantissaOk, hdrop, htake]
  simp [hne]

lemma stripSign_of_digits (l : List Char) (h : l.all Char.isDigit = true) :
    stripSign l = l := by
  cases l with
  | nil => rfl
  | cons c rest =>
    rw [List.all_cons, Bool.and_eq_true] at h
    obtain ⟨h1, h2⟩ := h
    have hc : ¬(c = '+' || c = '-') = true := by
      intro hor
      rw [Bool.or_eq_true, decide_eq_true_iff, decide_eq_true_iff] at hor
      rcases hor with h' | h' <;> rw [h'] at h1 <;> exact absurd h1 (by decide)
    simp [stripSign, hc]

lemma isPrefixOf_iff (l1 l2 : List Char) : l1.isPrefixOf l2 = true ↔ l1 <+: l2 :=
  List.isPrefixOf_iff_prefix

lemma isInfix_cons_of_isInfix (c : Char) (l1 l2 : List Char) (h : l1 <:+: l2) :
    l1 <:+: c :: l2 := by
  obtain ⟨s, t, hh⟩ := h
  exact ⟨c :: s, t, by rw [← hh]; rfl⟩

lemma replaceFuel_eq_of_le (sep rep : List Char) (fuel : Nat) :
    ∀ l : List Char, l.length ≤ fuel →
      replaceFuel sep rep fuel l = replaceFuel sep rep l.length l := by
  induction fuel using Nat.strong_induction_on with
  | _ fuel ih =>
    intro l hl
    cases l with
    | nil => cases fuel <;> rfl
    | cons c rest =>
      cases fuel with
      | zero => simp [List.length_cons] at hl
      | succ n =>
        rw [List.length_cons] at hl ⊢
        have hrest : rest.length ≤ n := Nat.le_of_succ_le_succ hl
        by_cases hm : (!sep.isEmpty && sep.isPrefixOf (c :: rest)) = true
        · have hsep : sep ≠ [] := by
            intro h
            subst h
            simp at hm
          have hpos : 0 < sep.length := List.length_pos.mpr hsep
          have hdl : ((c :: rest).drop sep.length).length ≤ rest.length := by
            rw [List.length_drop, List.length_cons]
            omega
          rw [replaceFuel, replaceFuel, if_pos hm, if_pos hm]
          rw [ih n (Nat.lt_succ_self n) _ (hdl.trans hrest),
            ih rest.length (Nat.lt_succ_of_le hrest) _ hdl]
        · rw [replaceFuel, replaceFuel, if_neg hm, if_neg hm]
          rw [ih n (Nat.lt_succ_self n) rest hrest]

lemma replaceAll_append_match (sep rep t : List Char) (hsep : sep ≠ []) :
    replaceFuel sep rep (sep ++ t).length (sep ++ t) =
      rep ++ replaceFuel sep rep t.length t := by
  cases sep with
  | nil => exact absurd rfl hsep
  | cons s ss =>
    have hm : (!(s :: ss).isEmpty && (s :: ss).isPrefixOf (s :: (ss ++ t))) = true := by
      rw [Bool.and_eq_true]
      refine ⟨by simp, ?_⟩
      rw [isPrefixOf_iff]
      exact ⟨t, rfl⟩
    rw [List.cons_append, List.length_cons, replaceFuel, if_pos hm]
    congr 1
    have hdrop : (s :: (ss ++ t)).drop (s :: ss).length = t := by
      rw [List.length_cons, List.drop_succ_cons]
      exact List.drop_left ss t
    rw [hdrop]
    have hle : t.length ≤ (ss ++ t).length := by
      rw [List.length_append]
      omega
    exact replaceFuel_eq_of_le (s :: ss) rep ((ss ++ t).length) t hle

lemma replaceAll_of_no_occurrence (sep rep : List Char) (l : List Char)
    (h : ¬ sep <:+: l) : replaceFuel sep rep l.length l = l := by
  induction l with
  | nil => rfl
  | cons c rest ih =>
    have hm : ¬(!sep.isEmpty && sep.isPrefixOf (c :: rest)) = true := by
      intro hm
      rw [Bool.and_eq_true] at hm
      obtain ⟨t, ht⟩ := (isPrefixOf_iff _ _).mp hm.2
      exact h ⟨[], t, ht⟩
    rw [List.length_cons, replaceFuel, if_neg hm]
    rw [ih fun hinf => h (isInfix_cons_of_isInfix c sep rest hinf)]

lemma replaceAll_cons_no_match (sep rep : List Char) (c : Char) (rest : List Char)
    (h : sep.isPrefixOf (c :: rest) = false) :
    replaceFuel sep rep (c :: rest).length (c :: rest) =
      c :: replaceFuel sep rep rest.length rest := by
  rw [List.length_cons, replaceFuel, if_neg (by simp [h])]

lemma collectEntry_of_empty (cfg : Environment) (k v : String)
    (he : (cfg.ignore_empty && strIsEmpty v) = true) :
    collectEntry cfg k v = none := by
  rw [collectEntry, if_pos he]

lemma collectEntry_of_pat (cfg : Environment) (k v pat : String)
    (hpp : pfxPattern cfg = some pat)
    (he : ¬(cfg.ignore_empty && strIsEmpty v) = true) :
    collectEntry cfg k v =
      if strStartsWith (strLower k) pat then
        some (sepRewrite cfg (strDrop (strLower k) pat.data.length),
          ⟨some theUri, inferValue cfg.try_parsing v⟩)
      else none := by
  rw [collectEntry, if_neg he, stripPfx]
  simp only [hpp]
  by_cases hs : strStartsWith (strLower k) pat = true
  · rw [if_pos hs, if_pos hs]
  · rw [if_neg hs, if_neg hs]

lemma collectEntry_of_no_pat (cfg : Environment) (k v : String)
    (hpp : pfxPattern cfg = none)
    (he : ¬(cfg.ignore_empty && strIsEmpty v) = true) :
    collectEntry cfg k v =
      some (sepRewrite cfg (strLower k),
        ⟨some theUri, inferValue cfg.try_parsing v⟩) := by
  rw [collectEntry, if_neg he, stripPfx]
  simp only [hpp]

lemma sepRewrite_empty_key (cfg : Environment) : sepRewrite cfg "" = "" := by
  rw [sepRewrite]
  split
  · rfl
  · rfl

/-- C1: when a prefix is configured, an entry survives the prefix filter
if and only if its lowercased name starts with the lowercased prefix
followed by the group separator; a surviving key has exactly that
pattern stripped from its front before the separator rewrite, and a
non-matching entry contributes nothing to `collect`. -/
theorem collect_pfx_filter (cfg : Environment) (p pat k v : String)
    (hp : cfg.pfx = some p)
    (hpat : pat = strLower (p ++ groupSep cfg))
    (he : ¬(cfg.ignore_empty = true ∧ strIsEmpty v = true)) :
    ((collectEntry cfg k v).isSome = true ↔ strStartsWith (strLower k) pat = true) ∧
    (strStartsWith (strLower k) pat = true →
      collectEntry cfg k v =
        some (sepRewrite cfg (strDrop (strLower k) pat.data.length),
          ⟨some theUri, inferValue cfg.try_parsing v⟩)) ∧
    (strStartsWith (strLower k) pat = false →
      collect cfg [(k, v)] = Except.ok []) := by
  have he' : ¬(cfg.ignore_empty && strIsEmpty v) = true := by
    rw [Bool.and_eq_true]
    exact he
  have hpp : pfxPattern cfg = some pat := by
    rw [pfxPattern, hp, Option.map_some', hpat]
  have hce := collectEntry_of_pat cfg k v pat hpp he'
  by_cases hs : strStartsWith (strLower k) pat = true
  · rw [hce, if_pos hs]
    refine ⟨by simp [hs], fun _ => rfl, fun hfalse => ?_⟩
    rw [hs] at hfalse
    exact absurd hfalse (by decide)
  · rw [hce, if_neg hs]
    rw [Bool.not_eq_true] at hs
    refine ⟨by simp [hs], fun htrue => absurd (hs ▸ htrue) (by decide), fun _ => ?_⟩
    rw [collect, List.foldl_cons, List.foldl_nil, collectStep]
    rw [hce, if_neg (by rw [hs]; exact (by decide))]

/-- Witness for `collect_pfx_filter`. -/
theorem collect_pfx_filter_witness :
    collectEntry ⟨some "config", some "_", false, false⟩ "CONFIG_DEBUG" "1" =
      some ("debug", ⟨some theUri, .str "1"⟩) ∧
    collect ⟨some "config", some "_", false, false⟩ [("OTHERVAR", "1")] =
      Except.ok [] := by
  constructor
  · have h := (collect_pfx_filter ⟨some "config", some "_", false, false⟩
      "config" "config_" "CONFIG_DEBUG" "1" rfl (by decide)
      (by decide)).2.1 (by decide)
    exact h.trans (by decide)
  · exact (collect_pfx_filter ⟨some "config", some "_", false, false⟩
      "config" "config_" "OTHERVAR" "1" rfl (by decide) (by decide)).2.2
      (by decide)

/-- C5: for an included entry the key rewrite applies Rust `str::replace`
of the configured separator by `.` exactly when the separator is
configured nonempty, and leaves the key unchanged otherwise; the
replacement substitutes `.` for every non-overlapping occurrence, left
to right (a key starting with the separator has it replaced and the
remainder processed; a key without any occurrence is returned
unchanged). -/
theorem collect_sep_rewrite (cfg : Environment) (k : String) :
    (∀ s, cfg.separator = some s → s ≠ "" → sepRewrite cfg k = strReplace k s ".") ∧
    (cfg.separator = none ∨ cfg.separator = some "" → sepRewrite cfg k = k) ∧
    (∀ (s : String) (t : List Char), s.data ≠ [] →
      strReplace ⟨s.data ++ t⟩ s "." = ⟨'.' :: (strReplace ⟨t⟩ s ".").data⟩) ∧
    (∀ (s u : String), ¬ s.data <:+: u.data → strReplace u s "." = u) := by
  refine ⟨?_, ?_, ?_, ?_⟩
  · intro s hs hne
    have hne' : s.data ≠ [] := by
      intro h
      exact hne (String.ext h)
    have hsep : sepCfg cfg = s := by
      rw [sepCfg, hs, Option.getD_some]
    have hsie : strIsEmpty s = false := by
      rw [strIsEmpty]
      cases hd : s.data with
      | nil => exact absurd hd hne'
      | cons c cs => rfl
    rw [sepRewrite, hsep, if_pos (by rw [hsie]; rfl)]
  · intro hcase
    have : sepCfg cfg = "" := by
      rcases hcase with h | h <;> rw [sepCfg, h] <;> rfl
    rw [sepRewrite, this, if_neg (by decide)]
  · intro s t hne
    have h := replaceAll_append_match s.data ['.'] t hne
    rw [strReplace, strReplace]
    simp only [h]
    rfl
  · intro s u hni
    have h := replaceAll_of_no_occurrence s.data ['.'] u.data hni
    cases u with
    | mk d =>
      rw [strReplace]
      exact congrArg String.mk h

/-- Witness for `collect_sep_rewrite`. -/
theorem collect_sep_rewrite_witness :
    sepRewrite ⟨none, some "_", false, false⟩ "redis_password" =
      strReplace "redis_password" "_" "." ∧
    strReplace "redis_password" "_" "." = "redis.password" ∧
    sepRewrite ⟨none, some "", false, false⟩ "redis_password" = "redis_password" ∧
    strReplace "xyz" "_" "." = "xyz" :=
  ⟨(collect_sep_rewrite ⟨none, some "_", false, false⟩ "redis_password").1 "_"
      rfl (by decide),
   by decide,
   (collect_sep_rewrite ⟨none, some "", false, false⟩ "redis_password").2.1
      (Or.inr rfl),
   (collect_sep_rewrite ⟨none, some "_", false, false⟩ "xyz").2.2.2 "_" "xyz"
      (by decide)⟩

/-- C6: with `ignoreEmpty` enabled an empty-valued entry contributes
nothing to the result map regardless of the other settings; inclusion of
an entry is exactly the conjunction of the empty-value filter and the
prefix filter, and that conjunction is commutative. -/
theorem collect_empty_filter (cfg : Environment) (k v : String) :
    (cfg.ignore_empty = true → strIsEmpty v = true →
      ∀ m, collectStep cfg m (k, v) = m) ∧
    ((collectEntry cfg k v).isSome = (emptyPass cfg v && pfxPass cfg k)) ∧
    ((emptyPass cfg v && pfxPass cfg k) = (pfxPass cfg k && emptyPass cfg v)) := by
  refine ⟨?_, ?_, Bool.and_comm _ _⟩
  · intro hie hv m
    rw [collectStep]
    simp only [collectEntry_of_empty cfg k v (by rw [hie, hv]; rfl)]
  · by_cases he : (cfg.ignore_empty && strIsEmpty v) = true
    · rw [collectEntry_of_empty cfg k v he]
      have : emptyPass cfg v = false := by
        rw [emptyPass, he]
        rfl
      rw [this]
      rfl
    · have hep : emptyPass cfg v = true := by
        rw [emptyPass, Bool.not_eq_true']
        exact Bool.not_eq_true _ ▸ (Bool.eq_false_iff.mpr he)
      cases hpp : pfxPattern cfg with
      | none =>
        rw [collectEntry_of_no_pat cfg k v hpp he, hep]
        have : pfxPass cfg k = true := by
          rw [pfxPass, hpp]
        rw [this]
        rfl
      | some pat =>
        rw [collectEntry_of_pat cfg k v pat hpp he, hep]
        have hpf : pfxPass cfg k = strStartsWith (strLower k) pat := by
          rw [pfxPass]
          simp only [hpp]
        rw [hpf]
        by_cases hs : strStartsWith (strLower k) pat = true
        · rw [if_pos hs, hs]
          rfl
        · rw [if_neg hs]
          rw [Bool.not_eq_true] at hs
          rw [hs]
          rfl

/-- Witness for `collect_empty_filter`. -/
theorem collect_empty_filter_witness :
    collectStep ⟨some "app", some "_", true, true⟩ [] ("APP_X", "") = [] :=
  (collect_empty_filter ⟨some "app", some "_", true, true⟩ "APP_X" "").1
    rfl rfl []

/-- C7: an entry whose lowercased name equals the prefix pattern itself
is not excluded: after stripping, the empty-string key is inserted into
the result map. -/
theorem collect_exact_pattern_key (cfg : Environment) (p pat k v : String)
    (hp : cfg.pfx = some p)
    (hpat : pat = strLower (p ++ groupSep cfg))
    (hk : strLower k = pat)
    (he : ¬(cfg.ignore_empty = true ∧ strIsEmpty v = true)) :
    collectEntry cfg k v =
      some ("", ⟨some theUri, inferValue cfg.try_parsing v⟩) ∧
    collect cfg [(k, v)] =
      Except.ok [("", ⟨some theUri, inferValue cfg.try_parsing v⟩)] := by
  have he' : ¬(cfg.ignore_empty && strIsEmpty v) = true := by
    rw [Bool.and_eq_true]
    exact he
  have hpp : pfxPattern cfg = some pat := by
    rw [pfxPattern, hp, Option.map_some', hpat]
  have hs : strStartsWith (strLower k) pat = true := by
    rw [hk, strStartsWith, isPrefixOf_iff]
  have hdrop : strDrop (strLower k) pat.data.length = "" := by
    rw [hk, strDrop, List.drop_length]
  have hce : collectEntry cfg k v =
      some ("", ⟨some theUri, inferValue cfg.try_parsing v⟩) := by
    rw [collectEntry_of_pat cfg k v pat hpp he', if_pos hs, hdrop,
      sepRewrite_empty_key]
  refine ⟨hce, ?_⟩
  rw [collect, List.foldl_cons, List.foldl_nil, collectStep]
  simp only [hce]
  rfl

/-- Witness for `collect_exact_pattern_key`. -/
theorem collect_exact_pattern_key_witness :
    collect ⟨some "app", some "_", false, false⟩ [("APP_", "x")] =
      Except.ok [("", ⟨some theUri, .str "x"⟩)] :=
  ((collect_exact_pattern_key ⟨some "app", some "_", false, false⟩
      "app" "app_" "APP_" "x" rfl (by decide) (by decide) (by decide)).2).trans
    (congrArg Except.ok (by decide))

/-- C2 counterexample: with a configured separator equal to the empty
string, the group separator is the empty string, not `_`, and the prefix
pattern is built without any trailing `_`. -/
theorem group_separator_empty_counterexample :
    (⟨some "config", some "", false, false⟩ : Environment).separator = some "" ∧
    groupSep ⟨some "config", some "", false, false⟩ = "" ∧
    groupSep ⟨some "config", some "", false, false⟩ ≠ "_" ∧
    pfxPattern ⟨some "config", some "", false, false⟩ = some "config" := by
  refine ⟨rfl, rfl, by decide, by decide⟩

/-- C2 amended: the group separator used to build the prefix match
pattern equals the configured separator whenever one is present (even
the empty string), and equals the literal `_` exactly when no separator
is configured. -/
theorem group_separator_fallback (cfg : Environment) :
    (cfg.separator = none → groupSep cfg = "_") ∧
    (∀ s, cfg.separator = some s → groupSep cfg = s) ∧
    pfxPattern cfg = cfg.pfx.map (fun p => strLower (p ++ groupSep cfg)) := by
  refine ⟨fun h => ?_, fun s h => ?_, rfl⟩
  · rw [groupSep, h, Option.getD_none]
  · rw [groupSep, h, Option.getD_some]

/-- Witness for `group_separator_fallback`. -/
theorem group_separator_fallback_witness :
    groupSep ⟨none, none, false, false⟩ = "_" ∧
    groupSep ⟨none, some "-", false, false⟩ = "-" :=
  ⟨(group_separator_fallback ⟨none, none, false, false⟩).1 rfl,
   (group_separator_fallback ⟨none, some "-", false, false⟩).2.1 "-" rfl⟩

/-- C3: with `tryParsing` disabled the value is always the verbatim
String variant; with it enabled the parses are attempted in strict
priority order with first success winning: boolean on the lowercased
text, then 64-bit signed integer, then 64-bit float, then the verbatim
String fallback. -/
theorem collect_value_inference_priority (v : String) :
    (inferValue false v = .str v) ∧
    (∀ b, parseBool (strLower v) = some b → inferValue true v = .boolean b) ∧
    (∀ i, parseBool (strLower v) = none → parseI64 v = some i →
      inferValue true v = .integer i) ∧
    (parseBool (strLower v) = none → parseI64 v = none → isF64 v = true →
      inferValue true v = .float v) ∧
    (parseBool (strLower v) = none → parseI64 v = none → isF64 v = false →
      inferValue true v = .str v) := by
  refine ⟨rfl, ?_, ?_, ?_, ?_⟩ <;> intros <;> simp [inferValue, *]

/-- Witness for `collect_value_inference_priority`. -/
theorem collect_value_inference_priority_witness :
    inferValue true "TRUE" = .boolean true ∧
    inferValue true "42" = .integer 42 ∧
    inferValue true "3.14" = .float "3.14" ∧
    inferValue true "hello" = .str "hello" ∧
    inferValue false "TRUE" = .str "TRUE" :=
  ⟨(collect_value_inference_priority "TRUE").2.1 true (by decide),
   (collect_value_inference_priority "42").2.2.1 42 (by decide) (by decide),
   (collect_value_inference_priority "3.14").2.2.2.1 (by decide) (by decide)
     (by decide),
   (collect_value_inference_priority "hello").2.2.2.2 (by decide) (by decide)
     (by decide),
   (collect_value_inference_priority "TRUE").1⟩

/-- C4: `collect` always returns the success variant, for every
configuration and every environment content. -/
theorem collect_never_errors (cfg : Environment)
    (vars : List (String × String)) :
    ∃ m, collect cfg vars = Except.ok m :=
  ⟨vars.foldl (collectStep cfg) [], rfl⟩

/-- C8: `collect` is a deterministic function of the configuration and
the environment snapshot: two runs over the same unchanged snapshot
yield identical result maps. -/
theorem collect_deterministic (cfg : Environment)
    (vars1 vars2 : List (String × String)) (h : vars1 = vars2) :
    collect cfg vars1 = collect cfg vars2 := by
  rw [h]

/-- Witness for `collect_deterministic`. -/
theorem collect_deterministic_witness :
    collect ⟨some "app", some "_", true, true⟩ [("APP_X", "1")] =
      collect ⟨some "app", some "_", true, true⟩ [("APP_X", "1")] :=
  collect_deterministic ⟨some "app", some "_", true, true⟩
    [("APP_X", "1")] [("APP_X", "1")] rfl

/-- C9: the default configuration has no prefix, no separator, and both
flags off; each builder call sets exactly its own field and leaves the
others unchanged; the convenience constructor equals the default with
the prefix set. -/
theorem builder_defaults_and_frame :
    Environment.defaultEnv = ⟨none, none, false, false⟩ ∧
    Environment.new = Environment.defaultEnv ∧
    (∀ s, Environment.with_pfx s = ⟨some s, none, false, false⟩) ∧
    (∀ (e : Environment) (s : String), (e.setPfx s).pfx = some s ∧
      (e.setPfx s).separator = e.separator ∧
      (e.setPfx s).ignore_empty = e.ignore_empty ∧
      (e.setPfx s).try_parsing = e.try_parsing) ∧
    (∀ (e : Environment) (s : String), (e.setSeparator s).separator = some s ∧
      (e.setSeparator s).pfx = e.pfx ∧
      (e.setSeparator s).ignore_empty = e.ignore_empty ∧
      (e.setSeparator s).try_parsing = e.try_parsing) ∧
    (∀ (e : Environment) (b : Bool), (e.set_ignore_empty b).ignore_empty = b ∧
      (e.set_ignore_empty b).pfx = e.pfx ∧
      (e.set_ignore_empty b).separator = e.separator ∧
      (e.set_ignore_empty b).try_parsing = e.try_parsing) ∧
    (∀ (e : Environment) (b : Bool), (e.set_try_parsing b).try_parsing = b ∧
      (e.set_try_parsing b).pfx = e.pfx ∧
      (e.set_try_parsing b).separator = e.separator ∧
      (e.set_try_parsing b).ignore_empty = e.ignore_empty) := by
  refine ⟨rfl, rfl, fun s => rfl, ?_, ?_, ?_, ?_⟩ <;>
    intro e x <;> exact ⟨rfl, rfl, rfl, rfl⟩

/-- C10: with `tryParsing` enabled, a decimal integer literal outside the
signed 64-bit range is not stored as Integer or String: the integer parse
fails on range while the float parse accepts the digit string, so the
value falls through to the Float variant. -/
theorem collect_big_integer_falls_to_float (v : String)
    (hne : v.data ≠ [])
    (hdig : v.data.all Char.isDigit = true)
    (hbig : 2 ^ 63 - 1 < digitsVal v.data) :
    inferValue true v = .float v := by
  have hlow : strLower v = v := by
    cases v with
    | mk d => simp [strLower, map_toLower_of_digits d hdig]
  have hvt : v ≠ "true" := by
    intro h
    rw [h] at hdig
    exact absurd hdig (by decide)
  have hvf : v ≠ "false" := by
    intro h
    rw [h] at hdig
    exact absurd hdig (by decide)
  have hpb : parseBool v = none := by
    simp [parseBool, hvt, hvf]
  obtain ⟨c, rest, hv⟩ : ∃ c rest, v.data = c :: rest := by
    cases hd : v.data with
    | nil => exact absurd hd hne
    | cons c rest => exact ⟨c, rest, rfl⟩
  have hdig' := hv ▸ hdig
  have hhead : c.isDigit = true := by
    rw [List.all_cons, Bool.and_eq_true] at hdig'
    exact hdig'.1
  have hcm : c ≠ '-' := by
    intro h
    rw [h] at hhead
    exact absurd hhead (by decide)
  have hcp : c ≠ '+' := by
    intro h
    rw [h] at hhead
    exact absurd hhead (by decide)
  have hd2n : digitsToNat (c :: rest) = some (digitsVal (c :: rest)) := by
    rw [digitsToNat, if_pos]
    exact ⟨List.cons_ne_nil c rest, hdig'⟩
  have hbig' : ¬ digitsVal (c :: rest) ≤ 2 ^ 63 - 1 :=
    Nat.not_le.mpr (hv ▸ hbig)
  have hpi : parseI64 v = none := by
    rw [parseI64, hv]
    simp only [hcm, hcp, if_false, if_neg hcm, if_neg hcp, hd2n, Option.some_bind]
    rw [if_neg hbig']
  have hstrip := stripSign_of_digits v.data hdig
  have hsplit := splitExp_of_digits v.data hdig
  have hmant := mantissaOk_of_digits v.data hne hdig
  have hf : isF64 v = true := by
    rw [isF64]
    simp only [hstrip, map_toLower_of_digits v.data hdig]
    split
    · rfl
    · simp [hsplit, hmant]
  simp [inferValue, hlow, hpb, hpi, hf]

/-- Witness for `collect_big_integer_falls_to_float`. -/
theorem collect_big_integer_falls_to_float_witness :
    inferValue true "9223372036854775808" = .float "9223372036854775808" :=
  collect_big_integer_falls_to_float "9223372036854775808" (by decide) (by decide)
    (by decide)

end ConfigRs
